import Mathlib

/-!
Verification development for the bioagent twitter-post worker
(`src/twitter_bot.js`).  Strings are modelled as lists of characters;
JavaScript `null`-able values are modelled with `Option`; machine time is
modelled with `Int` milliseconds.  Each definition below is a shallow
embedding of the correspondingly named function of the source file.
-/

/-- Strings of the JavaScript program, modelled as lists of characters. -/
abbrev Str := List Char

/-- Whitespace recognised by JavaScript `String.prototype.trim` and by the
regex class used in `cleanAnswerForTwitter` (ASCII whitespace plus NBSP;
the rarely used exotic Unicode space code points are not modelled). -/
def isWS (c : Char) : Bool :=
  c == ' ' || c == '\t' || c == '\n' || c == '\r' || c == '\x0b' ||
  c == '\x0c' || c == ' '

/-- JavaScript `String.prototype.trim`: drop whitespace from both ends. -/
def trim (l : Str) : Str :=
  ((l.dropWhile isWS).reverse.dropWhile isWS).reverse

/-- The ASCII uppercase alphabet. -/
def upperAlpha : Str := "ABCDEFGHIJKLMNOPQRSTUVWXYZ".data

/-- The ASCII lowercase alphabet. -/
def lowerAlpha : Str := "abcdefghijklmnopqrstuvwxyz".data

/-- Translate `c` through two parallel alphabets: if `c` occurs in the
first list, return the character at the same position of the second. -/
def lowerCharAux : Str → Str → Char → Char
  | u :: us, l :: ls, c => if c == u then l else lowerCharAux us ls c
  | _, _, c => c

/-- ASCII lower-casing of one character, as `toLowerCase` acts on the
ASCII range (the marker phrase searched for is pure ASCII). -/
def lowerChar (c : Char) : Char := lowerCharAux upperAlpha lowerAlpha c

/-- JavaScript `String.prototype.toLowerCase` on the modelled strings. -/
def lower (l : Str) : Str := l.map lowerChar

/-- Boolean test that `p` is a prefix of `l` (JS `String.startsWith`). -/
def isPre (p l : Str) : Bool :=
  match p, l with
  | [], _ => true
  | _ :: _, [] => false
  | a :: p', b :: l' => a == b && isPre p' l'

/-- Boolean substring test (JS `String.prototype.includes`). -/
def containsSub (needle : Str) : Str → Bool
  | [] => isPre needle []
  | c :: rest => isPre needle (c :: rest) || containsSub needle rest

/-- The references-section marker searched for by `cleanAnswerForTwitter`. -/
def marker : Str := "science papers:".data

/-- The marker test of `cleanAnswerForTwitter`
(`trimmed.toLowerCase().includes('science papers:')` applied to an
already trimmed line). -/
def hasMarker (l : Str) : Bool := containsSub marker (lower l)

/-- JS `String.prototype.split('\n')`. -/
def splitLines : Str → List Str
  | [] => [[]]
  | c :: rest =>
    if c == '\n' then [] :: splitLines rest
    else
      match splitLines rest with
      | [] => [[c]]
      | l :: ls => (c :: l) :: ls

/-- JS `Array.prototype.join('\n')`. -/
def joinLines : List Str → Str
  | [] => []
  | [l] => l
  | l :: ls => l ++ '\n' :: joinLines ls

/-- `\d` of the JS regexes: an ASCII digit. -/
def isDigitB (c : Char) : Bool := '0' ≤ c && c ≤ '9'

/-- `[A-Z]` of the JS regexes. -/
def isUpperB (c : Char) : Bool := 'A' ≤ c && c ≤ 'Z'

/-- `[a-z]` of the JS regexes. -/
def isLowerB (c : Char) : Bool := 'a' ≤ c && c ≤ 'z'

/-- Test that the list starts with `\d{4}\.\d{2}\.\d{2}`. -/
def datePre (l : Str) : Bool :=
  match l with
  | a :: b :: c :: d :: p :: e :: f :: q :: g :: h :: _ =>
    isDigitB a && isDigitB b && isDigitB c && isDigitB d && p == '.' &&
    isDigitB e && isDigitB f && q == '.' && isDigitB g && isDigitB h
  | _ => false

/-- Test that `\d{4}\.\d{2}\.\d{2}` occurs somewhere in the list. -/
def containsDate : Str → Bool
  | [] => false
  | c :: rest => datePre (c :: rest) || containsDate rest

/-- JS regex `/^[A-Z][a-z]+.*\d{4}\.\d{2}\.\d{2}/` on a single (already
trimmed) line: since `.*` can absorb extra `[a-z]` characters, a match
exists iff the first character is `[A-Z]`, the second is `[a-z]`, and the
date shape occurs at position two or later. -/
def matchRef1 (l : Str) : Bool :=
  match l with
  | a :: b :: rest => isUpperB a && isLowerB b && containsDate rest
  | _ => false

/-- Character class `[A-Z\s]` of the third JS regex. -/
def isAZs (c : Char) : Bool := isUpperB c || isWS c

/-- Scan used by `matchRef3` after at least one `[A-Z\s]` character has
been consumed: succeed on a literal space followed by a digit, or consume
another `[A-Z\s]` character and continue. -/
def matchRef3Aux : Str → Bool
  | c :: d :: rest => (c == ' ' && isDigitB d) || (isAZs c && matchRef3Aux (d :: rest))
  | _ => false

/-- JS regex `/^[A-Z\s]+ \d/` on a single trimmed line. -/
def matchRef3 (l : Str) : Bool :=
  match l with
  | c :: rest => isAZs c && matchRef3Aux rest
  | [] => false

/-- The look-ahead test of `cleanAnswerForTwitter`: the next non-blank
line "looks like a paper reference" when it matches the citation regex,
contains `'10.'`, or matches the all-caps heading regex. -/
def isRefShape (nextLine : Str) : Bool :=
  matchRef1 nextLine || containsSub ("10.".data) nextLine || matchRef3 nextLine

/-- The look-ahead of `cleanAnswerForTwitter`: skip blank-trimming lines
and return the first following line whose trim is non-empty, trimmed. -/
def firstNonEmptyTrim : List Str → Option Str
  | [] => none
  | l :: rest => if (trim l).isEmpty then firstNonEmptyTrim rest else some (trim l)

/-- The line loop of `cleanAnswerForTwitter`.  The boolean argument is the
`skipMode` flag.  A line whose trim contains the marker is always dropped
and turns skip mode on.  In skip mode a non-blank line is dropped; a blank
line consults the look-ahead: if the next non-blank line still looks like
a reference (or there is none) the blank line is dropped and skip mode
stays on, otherwise skip mode turns off and the blank line is kept. -/
def cleanLines : Bool → List Str → List Str
  | _, [] => []
  | skipMode, line :: rest =>
    let trimmed := trim line
    if hasMarker trimmed then cleanLines true rest
    else if skipMode then
      if trimmed.isEmpty then
        match firstNonEmptyTrim rest with
        | none => cleanLines true rest
        | some nextLine =>
          if isRefShape nextLine then cleanLines true rest
          else line :: cleanLines false rest
      else cleanLines true rest
    else line :: cleanLines false rest

/-- `cleanAnswerForTwitter` (src/twitter_bot.js lines 516-562): split into
lines, drop the science-papers section, rejoin, and trim. -/
def cleanAnswerForTwitter (answer : Str) : Str :=
  trim (joinLines (cleanLines false (splitLines answer)))

/-- A row of the source table `twitter_answers` as used by the bot.
Nullable text columns are `Option Str`; `created_at` is a timestamp in
milliseconds. -/
structure SourceRecord where
  id : Str
  answer : Option Str
  tweet_id : Option Str
  poi_transaction : Option Str
  created_at : Int
deriving DecidableEq

/-- `isValidRecord` (lines 496-514).  The `poi_transaction` requirement is
commented out in the source; only `answer` and `tweet_id` must be present
with non-whitespace content.  (JS `!record.answer` catches `null` and the
empty string; the empty string is equally caught by the trim test.) -/
def isValidRecord (record : SourceRecord) : Bool :=
  match record.answer with
  | none => false
  | some a =>
    if (trim a).length == 0 then false
    else
      match record.tweet_id with
      | none => false
      | some t => !((trim t).length == 0)

/-- The filter step of `getNewRecords` (lines 592-594) applied to the rows
returned by the database query: keep rows that are valid and whose id is
not in the in-memory `processedIds` set. -/
def getNewRecords (rows : List SourceRecord) (processedIds : List Str) : List SourceRecord :=
  rows.filter (fun record => isValidRecord record && !(processedIds.contains record.id))

/-- Insertion step for sorting fetched rows newest-first. -/
def insertDesc (r : SourceRecord) : List SourceRecord → List SourceRecord
  | [] => [r]
  | x :: xs => if r.created_at ≥ x.created_at then r :: x :: xs else x :: insertDesc r xs

/-- The SQL query of `getNewRecords` (lines 569-574): rows with
`created_at > lastCheckTime`, newest first, limited to 50, evaluated
against the source table as it stands at the moment of the fetch. -/
def fetchQuery (tableAtFetch : List SourceRecord) (lastCheckTime : Int) : List SourceRecord :=
  ((tableAtFetch.filter (fun r => r.created_at > lastCheckTime)).foldr insertDesc []).take 50

/-- A row of the Railway table `processed_records` (schema lines 391-403). -/
structure LedgerRow where
  record_id : Str
  posted_tweet_id : Option Str
  reply_to_tweet_id : Option Str
  status : Str
  content_length : Option Nat
  poi_transaction : Option Str
  processed_at : Int
  created_at : Int
  updated_at : Int
deriving DecidableEq

/-- `loadProcessedIds` (lines 425-442): the seen-set is seeded with every
`record_id` of the ledger. -/
def loadProcessedIds (ledger : List LedgerRow) : List Str :=
  ledger.map (fun row => row.record_id)

/-- The upsert statement of `saveProcessedId` (lines 446-462):
`INSERT ... ON CONFLICT (record_id) DO UPDATE SET posted_tweet_id,
status, updated_at`.  On insert, `processed_at` and `updated_at` are
`NOW()` and `created_at` takes its `CURRENT_TIMESTAMP` default; on
conflict only the three listed columns change. -/
def upsertLedger (L : List LedgerRow) (id : Str) (posted reply : Option Str)
    (status : Str) (clen : Option Nat) (poi : Option Str) (now : Int) : List LedgerRow :=
  if L.any (fun row => row.record_id == id) then
    L.map (fun row =>
      if row.record_id == id then
        { row with posted_tweet_id := posted, status := status, updated_at := now }
      else row)
  else
    L ++ [⟨id, posted, reply, status, clen, poi, now, now, now⟩]

/-- `executeQuery` (lines 330-355): up to `maxAttempts = 3` attempts; the
operation succeeds iff one of the three attempts succeeds, and throws
after the third failure.  `attemptOk n` tells whether attempt `n`
would succeed. -/
def executeQuery (attemptOk : Nat → Bool) : Bool :=
  attemptOk 0 || attemptOk 1 || attemptOk 2

/-- JS `Set.prototype.add` on the modelled seen-set. -/
def addSeen (l : List Str) (id : Str) : List Str :=
  if l.contains id then l else l ++ [id]

/-- The mutable statistics and stores of the bot that the delivery path
touches (`this.stats`, `this.processedIds`, and the Railway ledger). -/
structure BotState where
  ledger : List LedgerRow
  processedIds : List Str
  totalProcessed : Nat
  successfulPosts : Nat
  failedPosts : Nat
  skippedRecords : Nat
  errors : Nat
deriving DecidableEq

/-- `saveProcessedId` (lines 444-489): run the upsert through
`executeQuery`; on success add the id to the in-memory seen-set, on
failure (all three query attempts failed, so `executeQuery` threw) log
the error and increment the error counter — the seen-set and the ledger
are left untouched. -/
def saveProcessedId (st : BotState) (attemptOk : Nat → Bool) (recordId : Str)
    (posted reply : Option Str) (status : Str) (clen : Option Nat)
    (poi : Option Str) (now : Int) : BotState :=
  if executeQuery attemptOk then
    { st with
      ledger := upsertLedger st.ledger recordId posted reply status clen poi now,
      processedIds := addSeen st.processedIds recordId }
  else
    { st with errors := st.errors + 1 }

/-- The per-endpoint rate-limit record (`this.rateLimits[endpoint]`,
lines 64-78); every field starts as JS `null`. -/
structure RateLimitState where
  remaining : Option Int
  resetTime : Option Int
  limit : Option Int
deriving DecidableEq

/-- The value returned by `checkRateLimit`. -/
structure CheckResult where
  canProceed : Bool
  waitTime : Int
deriving DecidableEq

/-- JS falsiness of a nullable number: `null` and `0` are falsy. -/
def jsFalsy : Option Int → Bool
  | none => true
  | some n => n == 0

/-- `checkRateLimit` (lines 214-243), faithful to the JS truthiness of
`!rateLimit.remaining` and `!rateLimit.resetTime`.  Returns the result
together with the (possibly mutated) endpoint state. -/
def checkRateLimit (rateLimit : Option RateLimitState) (now : Int) :
    CheckResult × Option RateLimitState :=
  match rateLimit with
  | none => (⟨true, 0⟩, none)
  | some rl =>
    if jsFalsy rl.remaining || jsFalsy rl.resetTime then (⟨true, 0⟩, some rl)
    else
      let resetTime := rl.resetTime.getD 0
      if now ≥ resetTime then (⟨true, 0⟩, some { rl with remaining := rl.limit })
      else if rl.remaining.getD 0 > 0 then (⟨true, 0⟩, some rl)
      else (⟨false, resetTime - now⟩, some rl)

/-- The rate-limiting configuration `this.config` (lines 80-87). -/
structure Config where
  minDelayBetweenPosts : Nat
  maxDelayBetweenPosts : Nat
  rateLimitBackoffMultiplier : Nat
  maxRetries : Nat
  retryDelayMs : Nat

/-- The configured values: 2000ms minimum post gap, 30000ms backoff cap,
multiplier 2, 3 retries, 5000ms base retry delay. -/
def config : Config := ⟨2000, 30000, 2, 3, 5000⟩

/-- The exponential-backoff delay of `postToTwitter` (lines 768-771):
`min(retryDelayMs * multiplier^retryCount, maxDelayBetweenPosts)`. -/
def backoffDelayMs (retryCount : Nat) : Nat :=
  min (config.retryDelayMs * config.rateLimitBackoffMultiplier ^ retryCount)
    config.maxDelayBetweenPosts

/-- Result of one call to the posting API `rwClient.v2.tweet`: success
with the new tweet id, or an error that either is a rate-limit error
(HTTP 429 / "Too Many Requests") or carries a message matching the
deleted/not-visible phrases of lines 806-810. -/
inductive ApiResult where
  | ok (tweetId : Str)
  | err (isRateLimit : Bool) (looksDeleted : Bool)

/-- Observable actions of one `postToTwitter` run: a call of the posting
API (with the `retryCount` it was made at) or a backoff sleep. -/
inductive Event where
  | postAttempt (retryCount : Nat)
  | backoffDelay (ms : Nat)
deriving DecidableEq

/-- The posting/retry part of `postToTwitter` (lines 712-831), beginning
at the rate-limit gate before `rwClient.v2.tweet`.  `api n` is the
outcome of the attempt made with `retryCount = n`.  On a rate-limit error
with `retryCount < maxRetries` the call sleeps for the backoff delay and
recurses with `retryCount + 1`; otherwise the failure falls through to
the generic handler, which increments `failedPosts` and `errors` and,
only for a deleted/not-visible error message, persists a
`skipped_tweet_deleted` outcome.  Nothing is persisted for an exhausted
rate-limit retry. -/
def postLoop (record : SourceRecord) (finalContent : Str) (api : Nat → ApiResult)
    (attemptOk : Nat → Bool) (now : Int) (retryCount : Nat) (st : BotState) :
    BotState × List Event × Option (Str × Nat) :=
  match api retryCount with
  | .ok tweetId =>
    ({ st with successfulPosts := st.successfulPosts + 1 },
     [Event.postAttempt retryCount], some (tweetId, finalContent.length))
  | .err isRateLimit looksDeleted =>
    if h : isRateLimit = true ∧ retryCount < config.maxRetries then
      let d := backoffDelayMs retryCount
      let (st', evs, res) := postLoop record finalContent api attemptOk now (retryCount + 1) st
      (st', Event.postAttempt retryCount :: Event.backoffDelay d :: evs, res)
    else
      let st1 := { st with failedPosts := st.failedPosts + 1, errors := st.errors + 1 }
      if looksDeleted then
        let st2 := { st1 with skippedRecords := st1.skippedRecords + 1 }
        (saveProcessedId st2 attemptOk record.id none record.tweet_id
          ("skipped_tweet_deleted".data) none record.poi_transaction now,
         [Event.postAttempt retryCount], none)
      else (st1, [Event.postAttempt retryCount], none)
termination_by config.maxRetries + 1 - retryCount
decreasing_by simp_wf; omega

/-- `postToTwitter` (lines 670-831).  `tweetExists` is the result of
`validateTweet` on `record.tweet_id`.  An unreachable target is persisted
as `skipped_tweet_not_accessible` with a null posted id and the record is
not posted; an answer that cleans to nothing is only counted as skipped;
otherwise the (re-trimmed, possibly truncated) content is posted through
`postLoop`. -/
def postToTwitter (record : SourceRecord) (tweetExists : Bool) (api : Nat → ApiResult)
    (attemptOk : Nat → Bool) (now : Int) (st : BotState) :
    BotState × List Event × Option (Str × Nat) :=
  if !tweetExists then
    let st1 := { st with skippedRecords := st.skippedRecords + 1 }
    (saveProcessedId st1 attemptOk record.id none record.tweet_id
      ("skipped_tweet_not_accessible".data) none record.poi_transaction now,
     [], none)
  else
    let cleanedContent := cleanAnswerForTwitter (record.answer.getD [])
    if cleanedContent.isEmpty || (trim cleanedContent).isEmpty then
      ({ st with skippedRecords := st.skippedRecords + 1 }, [], none)
    else
      let finalContent0 := trim cleanedContent
      let finalContent :=
        if finalContent0.length > 20000 then finalContent0.take 19995 ++ "...".data
        else finalContent0
      postLoop record finalContent api attemptOk now 0 st

/-- The external collaborators consulted while processing one record. -/
structure RecEnv where
  tweetExists : Bool
  api : Nat → ApiResult
  attemptOk : Nat → Bool
  now : Int

/-- The per-record body of the loop in `processNewRecords`
(lines 844-872): count the record, run `postToTwitter`, and persist a
`success` outcome iff a tweet id came back. -/
def processRecord (record : SourceRecord) (env : RecEnv) (st : BotState) :
    BotState × List Event × Option (Str × Nat) :=
  let st0 := { st with totalProcessed := st.totalProcessed + 1 }
  let r := postToTwitter record env.tweetExists env.api env.attemptOk env.now st0
  match r.2.2 with
  | some (tweetId, contentLength) =>
    (saveProcessedId r.1 env.attemptOk record.id (some tweetId) record.tweet_id
      ("success".data) (some contentLength) record.poi_transaction env.now,
     r.2.1, r.2.2)
  | none => r

/-- The state owned by the poll loop: the bot state plus the watermark
`this.lastCheckTime`. -/
structure PollState where
  bot : BotState
  lastCheckTime : Int

/-- `processNewRecords` (lines 834-884).  `tableAtFetch` is the source
table as it stands when the query runs; `tUpdate` is the value of
`new Date()` when line 875 executes, i.e. the clock at the END of the
cycle, after all records were processed.  When the filtered candidate
list is empty the function returns early and the watermark is untouched;
otherwise every candidate is processed sequentially and the watermark is
then set to `tUpdate`. -/
def processNewRecords (tableAtFetch : List SourceRecord) (env : SourceRecord → RecEnv)
    (tUpdate : Int) (ps : PollState) : PollState × List Event :=
  let fetchedRows := fetchQuery tableAtFetch ps.lastCheckTime
  let records := getNewRecords fetchedRows ps.bot.processedIds
  if records.isEmpty then (ps, [])
  else
    let step := fun (acc : BotState × List Event) (record : SourceRecord) =>
      let r := processRecord record (env record) acc.1
      (r.1, acc.2 ++ r.2.1)
    let folded := records.foldl step (ps.bot, [])
    ({ bot := folded.1, lastCheckTime := tUpdate }, folded.2)

/-- The backoff delays recorded in an event trace, in order. -/
def delaysOf (evs : List Event) : List Nat :=
  evs.filterMap (fun e => match e with | .backoffDelay d => some d | _ => none)

/-- Number of posting-API calls recorded in an event trace. -/
def countAttempts (evs : List Event) : Nat :=
  (evs.filter (fun e => match e with | .postAttempt _ => true | _ => false)).length

/-- A bot state with empty ledger, empty seen-set and zeroed statistics. -/
def emptyBot : BotState := ⟨[], [], 0, 0, 0, 0, 0⟩

/-- Environment where the target tweet exists, posting succeeds at once
and the ledger store is reachable. -/
def okEnv : RecEnv := ⟨true, fun _ => .ok ("900".data), fun _ => true, 4000⟩

/-- Every record gets the plain success environment. -/
def cexEnv : SourceRecord → RecEnv := fun _ => okEnv

/-- A record created at time 500, present in the source table when the
first poll cycle fetches at time 1000. -/
def cexRecordA : SourceRecord :=
  ⟨"A".data, some ("hello".data), some ("t1".data), some ("p".data), 500⟩

/-- A record created at time 3000, i.e. while the first poll cycle (fetch
at 1000, watermark update at 5000) is still running. -/
def cexRecordX : SourceRecord :=
  ⟨"X".data, some ("world".data), some ("t2".data), none, 3000⟩

theorem isPre_iff {p l : Str} : isPre p l = true ↔ ∃ t, l = p ++ t := by
  induction p generalizing l with
  | nil => simp [isPre]
  | cons a p' ih =>
    cases l with
    | nil =>
      simp only [isPre, List.cons_append]
      constructor
      · intro h; cases h
      · rintro ⟨t, ht⟩; cases ht
    | cons b l' =>
      simp only [isPre, Bool.and_eq_true, beq_iff_eq, ih, List.cons_append,
        List.cons.injEq]
      constructor
      · rintro ⟨rfl, t, rfl⟩; exact ⟨t, rfl, rfl⟩
      · rintro ⟨t, rfl, rfl⟩; exact ⟨rfl, t, rfl⟩

theorem containsSub_iff {n h : Str} :
    containsSub n h = true ↔ ∃ s t, h = s ++ n ++ t := by
  induction h with
  | nil =>
    simp only [containsSub, isPre_iff]
    constructor
    · rintro ⟨t, ht⟩
      rcases List.append_eq_nil.mp ht.symm with ⟨rfl, rfl⟩
      exact ⟨[], [], rfl⟩
    · rintro ⟨s, t, hst⟩
      rcases List.append_eq_nil.mp hst.symm with ⟨h1, rfl⟩
      rcases List.append_eq_nil.mp h1 with ⟨rfl, rfl⟩
      exact ⟨[], rfl⟩
  | cons c h' ih =>
    simp only [containsSub, Bool.or_eq_true, isPre_iff, ih]
    constructor
    · rintro (⟨t, ht⟩ | ⟨s, t, hst⟩)
      · exact ⟨[], t, by simpa using ht⟩
      · exact ⟨c :: s, t, by simp [hst]⟩
    · rintro ⟨s, t, hst⟩
      cases s with
      | nil => exact Or.inl ⟨t, by simpa using hst⟩
      | cons x s' =>
        rw [List.cons_append, List.cons_append, List.cons.injEq] at hst
        exact Or.inr ⟨s', t, by simp [hst.2]⟩

theorem containsSub_append_left {n a : Str} (b : Str)
    (h : containsSub n a = true) : containsSub n (a ++ b) = true := by
  rw [containsSub_iff] at h ⊢
  obtain ⟨s, t, rfl⟩ := h
  exact ⟨s, t ++ b, by simp⟩

theorem containsSub_append_right {n b : Str} (a : Str)
    (h : containsSub n b = true) : containsSub n (a ++ b) = true := by
  rw [containsSub_iff] at h ⊢
  obtain ⟨s, t, rfl⟩ := h
  exact ⟨a ++ s, t, by simp⟩

theorem containsSub_split {n a b : Str} (h : containsSub n (a ++ b) = true) :
    containsSub n a = true ∨ containsSub n b = true ∨
      ∃ s t, n = s ++ t ∧ s ≠ [] ∧ t ≠ [] ∧ (∃ u, a = u ++ s) ∧ ∃ v, b = t ++ v := by
  rw [containsSub_iff] at h
  obtain ⟨s, t, hst⟩ := h
  rw [List.append_assoc] at hst
  rcases List.append_eq_append_iff.mp hst with ⟨k, hk1, hk2⟩ | ⟨k, hk1, hk2⟩
  · refine Or.inr (Or.inl ?_)
    rw [containsSub_iff]
    exact ⟨k, t, by simp [hk2]⟩
  · rcases List.append_eq_append_iff.mp hk2 with ⟨j, hj1, hj2⟩ | ⟨j, hj1, hj2⟩
    · refine Or.inl ?_
      rw [containsSub_iff]
      exact ⟨s, j, by simp [hk1, hj1]⟩
    · cases k with
      | nil =>
        refine Or.inr (Or.inl ?_)
        rw [containsSub_iff]
        simp only [List.nil_append] at hj1
        exact ⟨[], t, by simp [hj2, hj1]⟩
      | cons k0 ks =>
        cases j with
        | nil =>
          refine Or.inl ?_
          rw [containsSub_iff]
          simp only [List.append_nil] at hj1
          exact ⟨s, [], by simp [hk1, hj1]⟩
        | cons j0 js =>
          exact Or.inr (Or.inr ⟨k0 :: ks, j0 :: js, hj1, by simp, by simp,
            ⟨s, hk1⟩, ⟨t, hj2⟩⟩)

theorem dropWhile_containsSub {n : Str} (q : Char → Bool) {l : Str}
    (h : containsSub n (l.dropWhile q) = true) : containsSub n l = true := by
  have := containsSub_append_right (l.takeWhile q) h
  rwa [List.takeWhile_append_dropWhile] at this

theorem trim_containsSub {n l : Str} (h : containsSub n (trim l) = true) :
    containsSub n l = true := by
  unfold trim at h
  apply dropWhile_containsSub isWS
  set u := l.dropWhile isWS with hu
  have hsplit : u = ((u.reverse.dropWhile isWS).reverse : Str) ++
      (u.reverse.takeWhile isWS).reverse := by
    calc u = u.reverse.reverse := by rw [List.reverse_reverse]
    _ = (u.reverse.takeWhile isWS ++ u.reverse.dropWhile isWS).reverse := by
        rw [List.takeWhile_append_dropWhile]
    _ = (u.reverse.dropWhile isWS).reverse ++ (u.reverse.takeWhile isWS).reverse := by
        rw [List.reverse_append]
  rw [hsplit]
  exact containsSub_append_left _ h

theorem isWS_lowerCharAux {us ls : Str} (c : Char)
    (hu : ∀ u ∈ us, isWS u = false) (hl : ∀ l ∈ ls, isWS l = false) :
    isWS (lowerCharAux us ls c) = isWS c := by
  induction us generalizing ls with
  | nil => cases ls <;> rfl
  | cons u us ih =>
    cases ls with
    | nil => rfl
    | cons l ls =>
      show isWS (if c == u then l else lowerCharAux us ls c) = isWS c
      by_cases hc : c == u
      · rw [if_pos hc, hl l (List.mem_cons_self _ _), beq_iff_eq.mp hc,
          hu u (List.mem_cons_self _ _)]
      · rw [if_neg hc]
        exact ih (fun x hx => hu x (List.mem_cons_of_mem _ hx))
          (fun x hx => hl x (List.mem_cons_of_mem _ hx))

theorem isWS_lowerChar (c : Char) : isWS (lowerChar c) = isWS c :=
  isWS_lowerCharAux c (by decide) (by decide)

theorem lower_append (a b : Str) : lower (a ++ b) = lower a ++ lower b :=
  List.map_append _ a b

theorem lower_trim (l : Str) : lower (trim l) = trim (lower l) := by
  have hws : (isWS ∘ lowerChar) = isWS := funext isWS_lowerChar
  unfold trim lower
  rw [List.dropWhile_map, hws, ← List.map_reverse, List.dropWhile_map, hws,
    ← List.map_reverse]

theorem lowerChar_newline : lowerChar '\n' = '\n' := by decide

theorem lower_joinLines (M : List Str) :
    lower (joinLines M) = joinLines (M.map lower) := by
  induction M with
  | nil => rfl
  | cons l M ih =>
    cases M with
    | nil => rfl
    | cons m ms =>
      show lower (l ++ '\n' :: joinLines (m :: ms)) = _
      rw [lower_append]
      show lower l ++ lowerChar '\n' :: lower (joinLines (m :: ms)) = _
      rw [lowerChar_newline, ih]
      rfl

theorem dropWhile_append_cons_mid {s m : Str} {nh : Char} (h1 : isWS nh = false) :
    ∃ s', (s ++ nh :: m).dropWhile isWS = s' ++ nh :: m := by
  rw [List.dropWhile_append]
  split
  · exact ⟨[], by rw [List.dropWhile_cons_of_neg (by simp [h1]), List.nil_append]⟩
  · exact ⟨s.dropWhile isWS, rfl⟩

theorem containsSub_trim_of_ends {n z : Str} {nh lh : Char} {nt lt : Str}
    (hcons : n = nh :: nt) (hrev : n.reverse = lh :: lt)
    (h1 : isWS nh = false) (h2 : isWS lh = false)
    (h : containsSub n z = true) : containsSub n (trim z) = true := by
  rw [containsSub_iff] at h
  obtain ⟨s, t, hz⟩ := h
  have hz' : z = s ++ nh :: (nt ++ t) := by rw [hz, hcons]; simp
  obtain ⟨s', hs'⟩ := @dropWhile_append_cons_mid s (nt ++ t) nh h1
  rw [← hz'] at hs'
  have hu : z.dropWhile isWS = s' ++ (n ++ t) := by rw [hs', hcons]; simp
  have hurev : (z.dropWhile isWS).reverse = t.reverse ++ lh :: (lt ++ s'.reverse) := by
    rw [hu, List.reverse_append, List.reverse_append, hrev]
    simp
  obtain ⟨t', ht'⟩ := @dropWhile_append_cons_mid t.reverse (lt ++ s'.reverse) lh h2
  rw [← hurev] at ht'
  rw [containsSub_iff]
  refine ⟨s', t'.reverse, ?_⟩
  unfold trim
  rw [ht']
  have hfold : lh :: (lt ++ s'.reverse) = (s' ++ n).reverse := by
    rw [List.reverse_append, hrev]; simp
  rw [hfold, List.reverse_append, List.reverse_reverse]

theorem marker_trim_containsSub {z : Str} (h : containsSub marker z = true) :
    containsSub marker (trim z) = true :=
  @containsSub_trim_of_ends marker z 's' ':' ("cience papers:".data) ("srepap ecneics".data)
    (by decide) (by decide) (by decide) (by decide) h

theorem isPre_head {c x : Char} {n' l : Str} (h : isPre (c :: n') (x :: l) = true) :
    c = x := by
  simp only [isPre, Bool.and_eq_true, beq_iff_eq] at h
  exact h.1

theorem containsSub_newline_cons {n : Str} (hnl : ('\n' : Char) ∉ n) (hne : n ≠ [])
    {rest : Str} (h : containsSub n ('\n' :: rest) = true) :
    containsSub n rest = true := by
  cases n with
  | nil => exact absurd rfl hne
  | cons c n' =>
    simp only [containsSub, Bool.or_eq_true] at h
    rcases h with h | h
    · cases isPre_head h
      exact absurd (List.mem_cons_self _ _) hnl
    · exact h

theorem joinLines_cons_cons (l m : Str) (ms : List Str) :
    joinLines (l :: m :: ms) = l ++ '\n' :: joinLines (m :: ms) := rfl

theorem containsSub_joinLines {n : Str} (hnl : ('\n' : Char) ∉ n) (hne : n ≠ []) :
    ∀ M : List Str, containsSub n (joinLines M) = true →
      ∃ m ∈ M, containsSub n m = true := by
  intro M
  induction M with
  | nil =>
    intro h
    cases n with
    | nil => exact absurd rfl hne
    | cons c n' => exact absurd h (by simp [joinLines, containsSub, isPre])
  | cons l M ih =>
    cases M with
    | nil =>
      intro h
      exact ⟨l, List.mem_cons_self _ _, h⟩
    | cons m ms =>
      intro h
      rw [joinLines_cons_cons] at h
      rcases containsSub_split h with h1 | h2 | ⟨s0, t0, hn0, _, ht0, ⟨u, hu⟩, ⟨v, hv⟩⟩
      · exact ⟨l, List.mem_cons_self _ _, h1⟩
      · obtain ⟨m', hm', hc⟩ := ih (containsSub_newline_cons hnl hne h2)
        exact ⟨m', List.mem_cons_of_mem _ hm', hc⟩
      · cases t0 with
        | nil => exact absurd rfl ht0
        | cons t0h t0t =>
          rw [List.cons_append] at hv
          injection hv with hv1 hv2
          exfalso
          apply hnl
          rw [hn0, ← hv1]
          exact List.mem_append_right _ (List.mem_cons_self _ _)

theorem splitLines_ne_nil (t : Str) : splitLines t ≠ [] := by
  cases t with
  | nil => simp [splitLines]
  | cons c r =>
    simp only [splitLines]
    split
    · simp
    · split <;> simp

theorem joinLines_splitLines (t : Str) : joinLines (splitLines t) = t := by
  induction t with
  | nil => rfl
  | cons c r ih =>
    by_cases hc : c == '\n'
    · have hsplit : splitLines (c :: r) = [] :: splitLines r := by
        simp only [splitLines, if_pos hc]
      rcases hS : splitLines r with _ | ⟨s0, srest⟩
      · exact absurd hS (splitLines_ne_nil r)
      · have ih' : joinLines (s0 :: srest) = r := by rw [← hS]; exact ih
        rw [hsplit, hS, joinLines_cons_cons, ih', List.nil_append, beq_iff_eq.mp hc]
    · rcases hS : splitLines r with _ | ⟨s0, srest⟩
      · exact absurd hS (splitLines_ne_nil r)
      · have hsplit : splitLines (c :: r) = (c :: s0) :: srest := by
          simp only [splitLines, if_neg hc, hS]
        have ih' : joinLines (s0 :: srest) = r := by rw [← hS]; exact ih
        cases srest with
        | nil =>
          rw [hsplit]
          show c :: s0 = c :: r
          rw [show s0 = joinLines [s0] from rfl, ih']
        | cons m ms =>
          rw [hsplit, joinLines_cons_cons, List.cons_append, ← joinLines_cons_cons, ih']

theorem splitLines_decomp (t : Str) :
    (∀ l ls, splitLines t = l :: ls → ∃ u, t = l ++ u) ∧
    (∀ m ∈ splitLines t, ∃ s u, t = s ++ (m ++ u)) := by
  induction t with
  | nil =>
    constructor
    · intro l ls h
      simp only [splitLines] at h
      injection h with h1 h2
      exact ⟨[], by simp [h1]⟩
    · intro m hm
      simp only [splitLines, List.mem_singleton] at hm
      exact ⟨[], [], by simp [hm]⟩
  | cons c r ih =>
    obtain ⟨ih1, ih2⟩ := ih
    by_cases hc : c == '\n'
    · have hsplit : splitLines (c :: r) = [] :: splitLines r := by
        simp only [splitLines, if_pos hc]
      constructor
      · intro l ls h
        rw [hsplit] at h
        injection h with h1 h2
        exact ⟨c :: r, by simp [← h1]⟩
      · intro m hm
        rw [hsplit] at hm
        rcases List.mem_cons.mp hm with rfl | hm'
        · exact ⟨[], c :: r, rfl⟩
        · obtain ⟨s, u, hsu⟩ := ih2 m hm'
          exact ⟨c :: s, u, by simp [hsu]⟩
    · rcases hS : splitLines r with _ | ⟨s0, srest⟩
      · exact absurd hS (splitLines_ne_nil r)
      · have hsplit : splitLines (c :: r) = (c :: s0) :: srest := by
          simp only [splitLines, if_neg hc, hS]
        obtain ⟨u0, hu0⟩ := ih1 s0 srest hS
        constructor
        · intro l ls h
          rw [hsplit] at h
          injection h with h1 h2
          exact ⟨u0, by simp [← h1, hu0]⟩
        · intro m hm
          rw [hsplit] at hm
          rcases List.mem_cons.mp hm with rfl | hm'
          · exact ⟨[], u0, by simp [hu0]⟩
          · have hm'' : m ∈ splitLines r := by rw [hS]; exact List.mem_cons_of_mem _ hm'
            obtain ⟨s, u, hsu⟩ := ih2 m hm''
            exact ⟨c :: s, u, by simp [hsu]⟩

theorem dropWhile_dropWhile (p : Char → Bool) (l : Str) :
    (l.dropWhile p).dropWhile p = l.dropWhile p := by
  induction l with
  | nil => rfl
  | cons x xs ih =>
    by_cases hx : p x
    · rw [List.dropWhile_cons_of_pos hx]; exact ih
    · rw [List.dropWhile_cons_of_neg hx, List.dropWhile_cons_of_neg hx]

theorem length_dropWhile_le (p : Char → Bool) (l : Str) :
    (l.dropWhile p).length ≤ l.length := by
  induction l with
  | nil => exact Nat.le_refl _
  | cons x xs ih =>
    by_cases hx : p x
    · rw [List.dropWhile_cons_of_pos hx]
      exact Nat.le_succ_of_le ih
    · rw [List.dropWhile_cons_of_neg hx]

theorem dropWhile_self_head {p : Char → Bool} {y : Str} (hy : y.dropWhile p = y) :
    y = [] ∨ ∃ h t, y = h :: t ∧ p h = false := by
  cases y with
  | nil => exact Or.inl rfl
  | cons h t =>
    refine Or.inr ⟨h, t, rfl, ?_⟩
    by_contra hph
    rw [Bool.not_eq_false] at hph
    rw [List.dropWhile_cons_of_pos hph] at hy
    have := length_dropWhile_le p t
    rw [hy] at this
    exact absurd this (by simp [Nat.lt_irrefl])

theorem dropWhile_reverse_dropWhile {y : Str} (hy : y.dropWhile isWS = y) :
    ((y.reverse.dropWhile isWS).reverse : Str).dropWhile isWS =
      (y.reverse.dropWhile isWS).reverse := by
  rcases dropWhile_self_head hy with rfl | ⟨h, t, rfl, hph⟩
  · rfl
  · have hyzw : h :: t =
        ((h :: t).reverse.dropWhile isWS).reverse ++
          ((h :: t).reverse.takeWhile isWS).reverse := by
      conv_lhs => rw [← List.reverse_reverse (h :: t)]
      rw [← List.reverse_append, List.takeWhile_append_dropWhile]
    rcases hzz : ((h :: t).reverse.dropWhile isWS).reverse with _ | ⟨zh, zt⟩
    · rfl
    · rw [hzz, List.cons_append] at hyzw
      injection hyzw with h1 h2
      rw [List.dropWhile_cons_of_neg (by rw [← h1, hph]; exact Bool.false_ne_true)]

theorem trim_trim (l : Str) : trim (trim l) = trim l := by
  unfold trim
  have hAA : ((l.dropWhile isWS : Str)).dropWhile isWS = l.dropWhile isWS :=
    dropWhile_dropWhile _ _
  have h1 := dropWhile_reverse_dropWhile hAA
  rw [h1]
  rw [List.reverse_reverse, dropWhile_dropWhile]

theorem cleanLines_kept (sm : Bool) (ls : List Str) :
    ∀ l ∈ cleanLines sm ls, hasMarker (trim l) = false := by
  induction ls generalizing sm with
  | nil => intro l hl; simp [cleanLines] at hl
  | cons line rest ih =>
    intro l hl
    simp only [cleanLines] at hl
    by_cases hm : hasMarker (trim line)
    · rw [if_pos hm] at hl
      exact ih true l hl
    · rw [if_neg hm] at hl
      cases sm with
      | false =>
        rw [if_neg (by simp)] at hl
        rcases List.mem_cons.mp hl with rfl | hl'
        · exact Bool.not_eq_true _ |>.mp hm
        · exact ih false l hl'
      | true =>
        rw [if_pos rfl] at hl
        by_cases he : (trim line).isEmpty
        · rw [if_pos he] at hl
          rcases hF : firstNonEmptyTrim rest with _ | nextLine
          · simp only [hF] at hl
            exact ih true l hl
          · simp only [hF] at hl
            by_cases hr : isRefShape nextLine
            · rw [if_pos hr] at hl
              exact ih true l hl
            · rw [if_neg hr] at hl
              rcases List.mem_cons.mp hl with rfl | hl'
              · exact Bool.not_eq_true _ |>.mp hm
              · exact ih false l hl'
        · rw [if_neg he] at hl
          exact ih true l hl

theorem kept_lower_marker_free {l : Str} (h : hasMarker (trim l) = false) :
    containsSub marker (lower l) = false := by
  cases hcb : containsSub marker (lower l) with
  | false => rfl
  | true =>
    exfalso
    have h2 := marker_trim_containsSub hcb
    rw [← lower_trim] at h2
    unfold hasMarker at h
    rw [h] at h2
    exact Bool.noConfusion h2

theorem cleanLines_id {ls : List Str} (h : ∀ l ∈ ls, hasMarker (trim l) = false) :
    cleanLines false ls = ls := by
  induction ls with
  | nil => rfl
  | cons line rest ih =>
    simp only [cleanLines]
    rw [if_neg (by simp [h line (List.mem_cons_self _ _)])]
    rw [if_neg (by simp)]
    rw [ih (fun x hx => h x (List.mem_cons_of_mem _ hx))]

/-- Claim C10: the Content Cleaner `cleanAnswerForTwitter` is idempotent:
applying it to its own output returns that output unchanged, because no
retained line contains the case-insensitive marker and the output is
already joined and trimmed. -/
theorem C10_clean_idempotent (answer : Str) :
    cleanAnswerForTwitter (cleanAnswerForTwitter answer) = cleanAnswerForTwitter answer := by
  unfold cleanAnswerForTwitter
  set K := cleanLines false (splitLines answer) with hK
  set out := trim (joinLines K) with hout_def
  have hkept : ∀ l ∈ K, hasMarker (trim l) = false := cleanLines_kept false (splitLines answer)
  have hlow : ∀ l ∈ K, containsSub marker (lower l) = false :=
    fun l hl => kept_lower_marker_free (hkept l hl)
  have hjoin : containsSub marker (lower (joinLines K)) = false := by
    cases hcb : containsSub marker (lower (joinLines K)) with
    | false => rfl
    | true =>
      exfalso
      rw [lower_joinLines] at hcb
      obtain ⟨m, hm, hc⟩ := containsSub_joinLines (by decide) (by decide) (K.map lower) hcb
      obtain ⟨l, hl, rfl⟩ := List.mem_map.mp hm
      rw [hlow l hl] at hc
      exact Bool.noConfusion hc
  have hout : containsSub marker (lower out) = false := by
    cases hcb : containsSub marker (lower out) with
    | false => rfl
    | true =>
      exfalso
      rw [hout_def, lower_trim] at hcb
      have h1 := trim_containsSub hcb
      rw [hjoin] at h1
      exact Bool.noConfusion h1
  have hlines : ∀ m ∈ splitLines out, hasMarker (trim m) = false := by
    intro m hm
    cases hcb : hasMarker (trim m) with
    | false => rfl
    | true =>
      exfalso
      unfold hasMarker at hcb
      rw [lower_trim] at hcb
      have h1 := trim_containsSub hcb
      obtain ⟨s, u, hsu⟩ := (splitLines_decomp out).2 m hm
      have h2 : containsSub marker (lower out) = true := by
        rw [hsu, lower_append, lower_append]
        exact containsSub_append_right _ (containsSub_append_left _ h1)
      rw [hout] at h2
      exact Bool.noConfusion h2
  rw [cleanLines_id hlines, joinLines_splitLines, hout_def]
  exact trim_trim _

theorem isValidRecord_iff (r : SourceRecord) :
    isValidRecord r = true ↔
      (∃ a, r.answer = some a ∧ trim a ≠ []) ∧
        ∃ t, r.tweet_id = some t ∧ trim t ≠ [] := by
  unfold isValidRecord
  rcases ha : r.answer with _ | a
  · simp
  · rcases ht : r.tweet_id with _ | t
    · simp [ht]
    · simp only [ht, beq_iff_eq, List.length_eq_zero, Option.some.injEq]
      by_cases hta : trim a = []
      · simp [hta]
      · simp [hta]

/-- Claim C1: the candidate set returned by `getNewRecords` consists of
exactly the fetched rows with non-empty (after trimming) `answer` and
`tweet_id` whose id is not in the seen-set; a record with no
`poi_transaction` is not rejected, and a record whose id was persisted
with status `success` is excluded once the seen-set is seeded from the
ledger by `loadProcessedIds`. -/
theorem C1_getNewRecords_candidates :
    (∀ (rows : List SourceRecord) (processedIds : List Str) (r : SourceRecord),
        r ∈ getNewRecords rows processedIds ↔
          r ∈ rows ∧ (∃ a, r.answer = some a ∧ trim a ≠ []) ∧
            (∃ t, r.tweet_id = some t ∧ trim t ≠ []) ∧ r.id ∉ processedIds) ∧
    (⟨"n1".data, some ("body".data), some ("77".data), none, 0⟩ : SourceRecord) ∈
      getNewRecords [⟨"n1".data, some ("body".data), some ("77".data), none, 0⟩] [] ∧
    getNewRecords [⟨"X".data, some ("body".data), some ("77".data), some ("poi".data), 0⟩]
      (loadProcessedIds [⟨"X".data, some ("900".data), some ("77".data), "success".data,
        some 4, some ("poi".data), 10, 10, 10⟩]) = [] := by
  refine ⟨?_, by decide, by decide⟩
  intro rows processedIds r
  unfold getNewRecords
  rw [List.mem_filter, Bool.and_eq_true, isValidRecord_iff]
  constructor
  · rintro ⟨h1, ⟨h2, h3⟩, h4⟩
    refine ⟨h1, h2, h3, ?_⟩
    intro hmem
    rw [Bool.not_eq_true', Bool.eq_false_iff] at h4
    exact h4 (by rw [List.contains, List.elem_iff]; exact hmem)
  · rintro ⟨h1, h2, h3, h4⟩
    refine ⟨h1, ⟨h2, h3⟩, ?_⟩
    rw [Bool.not_eq_true', Bool.eq_false_iff]
    intro hc
    exact h4 (by rw [List.contains, List.elem_iff] at hc; exact hc)

/-- Claim C2 (code evaluation at the failing input): with recorded state
`remaining = 0`, `limit = 100`, `resetTime = 10000` and current time `0`
(well before the reset), `checkRateLimit` returns `canProceed = true`
with zero wait — the guard `!rateLimit.remaining` treats the exhausted
quota `0` as "no state recorded", so the rate-limited branch demanded by
the claim is unreachable. -/
theorem C2_checkRateLimit_zero_remaining :
    checkRateLimit (some ⟨some 0, some 10000, some 100⟩) 0 =
      (⟨true, 0⟩, some ⟨some 0, some 10000, some 100⟩) := by decide

/-- Claim C7: `cleanAnswerForTwitter` is a pure function of its input and
maps the marker example to just its first line, and the marker-free
example to itself. -/
theorem C7_cleaner_examples :
    cleanAnswerForTwitter ("Hello\nScience papers:\nSmith 2020.01.01\n10.1234/x".data) =
      "Hello".data ∧
    cleanAnswerForTwitter ("Hello\n\nMore content".data) = "Hello\n\nMore content".data :=
  ⟨by decide, by decide⟩

/-- Claim C3: upserting the same `recordId` twice leaves exactly one row
for that id; the second call overwrites `posted_tweet_id`, `status` and
`updated_at` in place while `processed_at`, `created_at` and the other
fields written at insertion time keep their first-call values. -/
theorem C3_ledger_upsert_idem :
    ∀ (L : List LedgerRow) (id : Str) (p1 r1 : Option Str) (s1 : Str) (c1 : Option Nat)
      (q1 : Option Str) (t1 : Int) (p2 r2 : Option Str) (s2 : Str) (c2 : Option Nat)
      (q2 : Option Str) (t2 : Int),
      (∀ row ∈ L, row.record_id ≠ id) →
      (upsertLedger (upsertLedger L id p1 r1 s1 c1 q1 t1) id p2 r2 s2 c2 q2 t2).filter
          (fun row => row.record_id == id) =
        [⟨id, p2, r1, s2, c1, q1, t1, t1, t2⟩] := by
  intro L id p1 r1 s1 c1 q1 t1 p2 r2 s2 c2 q2 t2 hfresh
  have hany : L.any (fun row => row.record_id == id) = false := by
    rw [List.any_eq_false]
    intro row hrow
    simp [hfresh row hrow]
  have h1 : upsertLedger L id p1 r1 s1 c1 q1 t1 =
      L ++ [⟨id, p1, r1, s1, c1, q1, t1, t1, t1⟩] := by
    unfold upsertLedger
    rw [if_neg (by simp [hany])]
  rw [h1]
  unfold upsertLedger
  rw [if_pos (by simp)]
  rw [List.map_append, List.filter_append]
  have hmapL : L.map (fun row =>
      if row.record_id == id then
        { row with posted_tweet_id := p2, status := s2, updated_at := t2 }
      else row) = L := by
    conv_rhs => rw [← List.map_id L]
    apply List.map_congr_left
    intro row hrow
    simp [hfresh row hrow]
  rw [hmapL]
  rw [List.filter_eq_nil_iff.mpr (fun row hrow => by simp [hfresh row hrow])]
  simp [List.filter]

/-- Witness for C3 at a concrete input: a fresh ledger, two upserts for
record id `r1` with different outcomes. -/
theorem C3_ledger_upsert_idem_witness :
    (upsertLedger (upsertLedger [] ("r1".data) none (some ("77".data)) ("skipped_tweet_not_accessible".data)
        none (some ("poi".data)) 10) ("r1".data) (some ("900".data)) (some ("77".data))
        ("success".data) (some 5) (some ("poi".data)) 20).filter
      (fun row => row.record_id == "r1".data) =
    [⟨"r1".data, some ("900".data), some ("77".data), "success".data, none,
      some ("poi".data), 10, 10, 20⟩] := by
  exact C3_ledger_upsert_idem [] ("r1".data) none (some ("77".data))
    ("skipped_tweet_not_accessible".data) none (some ("poi".data)) 10
    (some ("900".data)) (some ("77".data)) ("success".data) (some 5)
    (some ("poi".data)) 20 (by simp)

/-- Claim C9: when the ledger write fails (all three bounded query
attempts fail, `executeQuery = false`), `saveProcessedId` only logs the
failure (error counter) and leaves the seen-set and ledger untouched, so
the record stays eligible; the seen-set gains the id exactly when the
store operation succeeds. -/
theorem C9_save_failure_seen_set :
    ∀ (st : BotState) (attemptOk : Nat → Bool) (id : Str) (posted reply : Option Str)
      (status : Str) (clen : Option Nat) (poi : Option Str) (now : Int),
      (executeQuery attemptOk = false →
        (saveProcessedId st attemptOk id posted reply status clen poi now).processedIds =
            st.processedIds ∧
          (saveProcessedId st attemptOk id posted reply status clen poi now).ledger =
            st.ledger ∧
          (saveProcessedId st attemptOk id posted reply status clen poi now).errors =
            st.errors + 1) ∧
      (executeQuery attemptOk = true →
        id ∈ (saveProcessedId st attemptOk id posted reply status clen poi now).processedIds) ∧
      (id ∈ (saveProcessedId st attemptOk id posted reply status clen poi now).processedIds →
        executeQuery attemptOk = true ∨ id ∈ st.processedIds) := by
  intro st attemptOk id posted reply status clen poi now
  unfold saveProcessedId
  by_cases hq : executeQuery attemptOk
  · rw [if_pos hq]
    refine ⟨fun hf => absurd hq (by simp [hf]), fun _ => ?_, fun _ => Or.inl hq⟩
    show id ∈ addSeen st.processedIds id
    unfold addSeen
    by_cases hc : st.processedIds.contains id
    · rw [if_pos hc]
      rw [List.contains, List.elem_iff] at hc
      exact hc
    · rw [if_neg hc]
      exact List.mem_append_right _ (List.mem_cons_self _ _)
  · rw [if_neg hq]
    exact ⟨fun _ => ⟨rfl, rfl, rfl⟩, fun ht => absurd ht hq, fun hm => Or.inr hm⟩

/-- Witness for C9: unreachable store (every attempt fails) on a fresh
state — the seen-set stays empty. -/
theorem C9_save_failure_seen_set_witness :
    (saveProcessedId emptyBot (fun _ => false) ("r1".data) none none ("success".data)
        none none 0).processedIds = emptyBot.processedIds :=
  ((C9_save_failure_seen_set emptyBot (fun _ => false) ("r1".data) none none
    ("success".data) none none 0).1 rfl).1

theorem mem_addSeen (l : List Str) (id : Str) : id ∈ addSeen l id := by
  unfold addSeen
  by_cases hc : l.contains id
  · rw [if_pos hc]
    rw [List.contains, List.elem_iff] at hc
    exact hc
  · rw [if_neg hc]
    exact List.mem_append_right _ (List.mem_cons_self _ _)

/-- Claim C4: when `validateTweet` reports the target tweet as not
accessible, `postToTwitter` persists an outcome with the unreachable-skip
status and a null `posted_tweet_id`, never calls the posting API (the
event trace is empty), and adds the record id to the seen-set. -/
theorem C4_skip_unreachable :
    ∀ (st : BotState) (r : SourceRecord) (api : Nat → ApiResult)
      (attemptOk : Nat → Bool) (now : Int),
      (∀ row ∈ st.ledger, row.record_id ≠ r.id) →
      executeQuery attemptOk = true →
      postToTwitter r false api attemptOk now st =
        ({ st with
            skippedRecords := st.skippedRecords + 1,
            ledger := st.ledger ++ [⟨r.id, none, r.tweet_id,
              "skipped_tweet_not_accessible".data, none, r.poi_transaction, now, now, now⟩],
            processedIds := addSeen st.processedIds r.id },
         [], none) ∧
      r.id ∈ addSeen st.processedIds r.id := by
  intro st r api attemptOk now hfresh hq
  refine ⟨?_, mem_addSeen _ _⟩
  have hany : (st.ledger.any fun row => row.record_id == r.id) = false := by
    rw [List.any_eq_false]
    intro row hrow
    simp [hfresh row hrow]
  unfold postToTwitter saveProcessedId upsertLedger
  simp [hq, hany]

/-- Witness for C4: concrete unreachable-target run on a fresh state. -/
theorem C4_skip_unreachable_witness :
    postToTwitter (⟨"u1".data, some ("body".data), some ("77".data), none, 0⟩ : SourceRecord)
        false (fun _ => ApiResult.err true false) (fun _ => true) 9 emptyBot =
      ({ emptyBot with
          skippedRecords := 1,
          ledger := [⟨"u1".data, none, some ("77".data),
            "skipped_tweet_not_accessible".data, none, none, 9, 9, 9⟩],
          processedIds := ["u1".data] },
       [], none) := by
  have h := (C4_skip_unreachable emptyBot
    ⟨"u1".data, some ("body".data), some ("77".data), none, 0⟩
    (fun _ => ApiResult.err true false) (fun _ => true) 9 (by simp [emptyBot]) rfl).1
  rw [h]
  rfl

/-- Claim C8: a candidate whose answer cleans to nothing is only counted
(`skippedRecords`, besides the unconditional `totalProcessed`); nothing
is posted, no ledger row is written and the seen-set is unchanged, so the
record stays fetchable. -/
theorem C8_skip_empty_clean :
    ∀ (st : BotState) (r : SourceRecord) (env : RecEnv),
      env.tweetExists = true →
      cleanAnswerForTwitter (r.answer.getD []) = [] →
      processRecord r env st =
        ({ st with totalProcessed := st.totalProcessed + 1,
                   skippedRecords := st.skippedRecords + 1 }, [], none) := by
  intro st r env htw hclean
  unfold processRecord postToTwitter
  simp [htw, hclean]

/-- Witness for C8: a record whose whole answer is a science-papers
section cleans to the empty string and is skipped without persistence. -/
theorem C8_skip_empty_clean_witness :
    processRecord (⟨"e1".data, some ("Science papers:\nSmith 2020.01.01".data),
        some ("77".data), none, 0⟩ : SourceRecord) okEnv emptyBot =
      ({ emptyBot with totalProcessed := 1, skippedRecords := 1 }, [], none) :=
  C8_skip_empty_clean emptyBot
    ⟨"e1".data, some ("Science papers:\nSmith 2020.01.01".data), some ("77".data), none, 0⟩
    okEnv rfl (by decide)

/-- Claim C5: with every posting attempt failing as a rate-limit error,
the engine makes the initial attempt plus exactly `maxRetries` retries
with backoff delays `min(retryDelayMs * multiplier^attempt,
maxDelayBetweenPosts)` = 5000, 10000, 20000 ms (strictly increasing,
below the 30000 ms cap), then gives up with a null result, incrementing
only the failure statistics: the ledger and the seen-set are untouched,
so the record is eligible again on a future poll. -/
theorem C5_retry_exhaustion :
    ∀ (st : BotState) (r : SourceRecord) (attemptOk : Nat → Bool) (now : Int),
      trim (cleanAnswerForTwitter (r.answer.getD [])) ≠ [] →
      processRecord r ⟨true, fun _ => ApiResult.err true false, attemptOk, now⟩ st =
        ({ st with totalProcessed := st.totalProcessed + 1,
                   failedPosts := st.failedPosts + 1,
                   errors := st.errors + 1 },
         [Event.postAttempt 0, Event.backoffDelay 5000, Event.postAttempt 1,
          Event.backoffDelay 10000, Event.postAttempt 2, Event.backoffDelay 20000,
          Event.postAttempt 3], none) ∧
      backoffDelayMs 0 = 5000 ∧ backoffDelayMs 1 = 10000 ∧ backoffDelayMs 2 = 20000 ∧
      backoffDelayMs 0 < backoffDelayMs 1 ∧ backoffDelayMs 1 < backoffDelayMs 2 ∧
      backoffDelayMs 2 ≤ config.maxDelayBetweenPosts ∧
      countAttempts [Event.postAttempt 0, Event.backoffDelay 5000, Event.postAttempt 1,
          Event.backoffDelay 10000, Event.postAttempt 2, Event.backoffDelay 20000,
          Event.postAttempt 3] = config.maxRetries + 1 ∧
      delaysOf [Event.postAttempt 0, Event.backoffDelay 5000, Event.postAttempt 1,
          Event.backoffDelay 10000, Event.postAttempt 2, Event.backoffDelay 20000,
          Event.postAttempt 3] = [backoffDelayMs 0, backoffDelayMs 1, backoffDelayMs 2] := by
  intro st r attemptOk now hne
  refine ⟨?_, by decide, by decide, by decide, by decide, by decide, by decide,
    by decide, by decide⟩
  have hc : cleanAnswerForTwitter (r.answer.getD []) ≠ [] := by
    intro hc
    exact hne (by rw [hc]; rfl)
  unfold processRecord
  simp [postToTwitter, postLoop, backoffDelayMs, config, List.isEmpty_iff, hc, hne]

/-- Witness for C5: concrete run with every attempt rate-limited. -/
theorem C5_retry_exhaustion_witness :
    processRecord (⟨"w5".data, some ("hello".data), some ("77".data), none, 0⟩ : SourceRecord)
        ⟨true, fun _ => ApiResult.err true false, fun _ => true, 0⟩ emptyBot =
      ({ emptyBot with totalProcessed := 1, failedPosts := 1, errors := 1 },
       [Event.postAttempt 0, Event.backoffDelay 5000, Event.postAttempt 1,
        Event.backoffDelay 10000, Event.postAttempt 2, Event.backoffDelay 20000,
        Event.postAttempt 3], none) := by
  have h := (C5_retry_exhaustion emptyBot
    ⟨"w5".data, some ("hello".data), some ("77".data), none, 0⟩
    (fun _ => true) 0 (by decide)).1
  rw [h]
  rfl

/-- Claim C6 counterexample.  Timeline: the first cycle's fetch runs at
time 1000 against a table holding only `cexRecordA`; `cexRecordX` is
created at 3000, while the cycle is still processing; the watermark
update (`new Date()` at line 875) runs at 5000.  The resulting watermark
is 5000 — the end-of-cycle clock, not the cycle's start time 1000 — and
the next fetch (window `created_at > 5000`) misses `cexRecordX` even
though a watermark equal to the start time 1000 would have caught it. -/
theorem C6_watermark_counterexample :
    (processNewRecords [cexRecordA] cexEnv 5000 ⟨emptyBot, 0⟩).1.lastCheckTime = 5000 ∧
    (5000 : Int) ≠ 1000 ∧
    fetchQuery [cexRecordA, cexRecordX]
      ((processNewRecords [cexRecordA] cexEnv 5000 ⟨emptyBot, 0⟩).1.lastCheckTime) = [] ∧
    cexRecordX ∈ fetchQuery [cexRecordA, cexRecordX] 1000 := by
  exact ⟨rfl, by decide, rfl, by decide⟩

/-- Claim C6 as amended: when the filtered fetch yields no candidates the
cycle returns early and the watermark is untouched; otherwise, after all
candidates are processed, the watermark is set to the clock value at the
END of the cycle (`tUpdate`), not to a start time captured before
fetching. -/
theorem C6_watermark_amended :
    ∀ (tableAtFetch : List SourceRecord) (env : SourceRecord → RecEnv) (tUpdate : Int)
      (ps : PollState),
      (getNewRecords (fetchQuery tableAtFetch ps.lastCheckTime) ps.bot.processedIds = [] →
        processNewRecords tableAtFetch env tUpdate ps = (ps, [])) ∧
      (getNewRecords (fetchQuery tableAtFetch ps.lastCheckTime) ps.bot.processedIds ≠ [] →
        (processNewRecords tableAtFetch env tUpdate ps).1.lastCheckTime = tUpdate) := by
  intro table env tU ps
  constructor
  · intro h
    simp [processNewRecords, h]
  · intro h
    simp [processNewRecords, List.isEmpty_iff, h]

/-- Witness for the amended C6: the counterexample cycle's watermark ends
up at the end-of-cycle clock value 5000. -/
theorem C6_watermark_amended_witness :
    (processNewRecords [cexRecordA] cexEnv 5000 ⟨emptyBot, 0⟩).1.lastCheckTime = 5000 :=
  (C6_watermark_amended [cexRecordA] cexEnv 5000 ⟨emptyBot, 0⟩).2 (by decide)
